import Mathlib

/-
Verification of the rss-action managed-section codec, URL canonicalizer,
merge engine and run pipeline (src/index.js).

Modelling conventions:
* JavaScript strings are modelled as `List Char` (`JStr`).
* `new URL(...)` / `URLSearchParams` are modelled by `parseUrl` / `serializeUrl`
  over a structured `UrlModel` (scheme://host path ?query #fragment), with the
  WHATWG form-urlencoded query-list semantics of `searchParams.set` /
  `searchParams.delete` (`setParam` / `deleteParam`) and a percent-encoding of
  the query delimiter characters on re-serialization.  A JS parse failure
  (the `catch` branch) is the `none` result of `parseUrl`.
* `today()` is passed in as an explicit `todayStr` argument.
* The regex scan of `parseSection` (flags g, m) is modelled by a scanner that
  attempts the line pattern at every line start, with the lazy-title
  backtracking semantics of `- \[(.+?)\]\(([^)]+)\)(?: - (\d{4}-\d{2}-\d{2}))?`.
* `parseInt(s, 10)` returning NaN is modelled as `none : Option Int`;
  `Math.max(1, NaN) = NaN` and `x > NaN = false` are reflected in
  `effectiveMaxLinks` and `mergeStep`.
-/

set_option autoImplicit false

namespace RssAction

/-- JavaScript strings, modelled as lists of characters. -/
abbrev JStr := List Char

/-- The opening sentinel line of the managed section (MARKER_START). -/
def MARKER_START : JStr := ("<!-- rss-action:start -->").toList

/-- The closing sentinel line of the managed section (MARKER_END). -/
def MARKER_END : JStr := ("<!-- rss-action:end -->").toList

/-- Whitespace as JavaScript's regex `\s` / `trim` see it (ASCII part). -/
def isSpaceJS (c : Char) : Bool :=
  c = ' ' ∨ c = '\t' ∨ c = '\n' ∨ c = '\r' ∨ c = '\x0b' ∨ c = '\x0c'

/-- Decimal digit test, the `\d` of the line regex. -/
def isDigitC (c : Char) : Bool := '0' ≤ c ∧ c ≤ '9'

/-- ASCII letter test (used for URL schemes). -/
def isAlphaC (c : Char) : Bool :=
  ('a' ≤ c ∧ c ≤ 'z') ∨ ('A' ≤ c ∧ c ≤ 'Z')

/-- Split a string at the first occurrence of `sep`: returns the part before
it and, when `sep` occurs, the part after it. -/
def breakAtChar (sep : Char) : JStr → JStr × Option JStr
  | [] => ([], none)
  | c :: rest =>
    if c = sep then ([], some rest)
    else
      let p := breakAtChar sep rest
      (c :: p.1, p.2)

/-- Split a string on every occurrence of `sep` (like JS `String.split`). -/
def splitOnChar (sep : Char) : JStr → List JStr
  | [] => [[]]
  | c :: rest =>
    if c = sep then [] :: splitOnChar sep rest
    else
      match splitOnChar sep rest with
      | s :: ss => (c :: s) :: ss
      | [] => [[c]]

/-- Index of the first occurrence of `pat` as a substring (JS `indexOf`),
`none` when absent. -/
def firstOccAux (pat : JStr) : JStr → Option Nat
  | [] => if pat.isPrefixOf ([] : JStr) then some 0 else none
  | c :: rest =>
    if pat.isPrefixOf (c :: rest) then some 0
    else (firstOccAux pat rest).map (fun n => n + 1)

/-- JS `String.trimEnd`. -/
def trimEndJS (s : JStr) : JStr := (s.reverse.dropWhile isSpaceJS).reverse

/-- JS `String.trim`. -/
def trimJS (s : JStr) : JStr := trimEndJS (s.dropWhile isSpaceJS)

/-! URL canonicalizer. -/

/-- Hexadecimal digit value of a character, `none` for non-hex characters. -/
def hexVal (c : Char) : Option Nat :=
  if '0' ≤ c ∧ c ≤ '9' then some (c.toNat - 48)
  else if 'A' ≤ c ∧ c ≤ 'F' then some (c.toNat - 55)
  else if 'a' ≤ c ∧ c ≤ 'f' then some (c.toNat - 87)
  else none

/-- Percent-encode one character for the query string.  The model encodes the
query delimiter characters that the WHATWG form-urlencoded serializer always
escapes and leaves other characters alone. -/
def encodeC (c : Char) : JStr :=
  if c = '%' then ("%25").toList
  else if c = '&' then ("%26").toList
  else if c = '=' then ("%3D").toList
  else if c = '#' then ("%23").toList
  else if c = '+' then ("%2B").toList
  else [c]

/-- Percent-encode a query name or value. -/
def encodeQ : JStr → JStr
  | [] => []
  | c :: rest => encodeC c ++ encodeQ rest

/-- Percent-decode a query name or value (form-urlencoded parsing: `+` is a
space, `%xx` a character, malformed escapes are literal). -/
def decodeQ : JStr → JStr
  | [] => []
  | c :: rest =>
    if c = '+' then ' ' :: decodeQ rest
    else if c = '%' then
      let bad := '%' :: decodeQ rest
      match rest with
      | h :: l :: rest2 =>
        match hexVal h, hexVal l with
        | some a, some b => Char.ofNat (16 * a + b) :: decodeQ rest2
        | _, _ => bad
      | _ => bad
    else c :: decodeQ rest

/-- Serialize a query parameter list, joining `name=value` pairs with `&`. -/
def serializeQuery : List (JStr × JStr) → JStr
  | [] => []
  | [(n, v)] => encodeQ n ++ '=' :: encodeQ v
  | (n, v) :: rest => encodeQ n ++ '=' :: encodeQ v ++ '&' :: serializeQuery rest

/-- Parse a query string into a parameter list (empty segments are skipped,
a segment without `=` yields an empty value). -/
def parseQuery (q : JStr) : List (JStr × JStr) :=
  ((splitOnChar '&' q).filter (fun seg => seg ≠ [])).map (fun seg =>
    match breakAtChar '=' seg with
    | (n, some v) => (decodeQ n, decodeQ v)
    | (n, none) => (decodeQ n, []))

/-- Structured URL: the parse result of `new URL(...)` as far as this
program's behavior depends on it. -/
structure UrlModel where
  scheme : JStr
  host : JStr
  path : JStr
  params : List (JStr × JStr)
  fragment : Option JStr
deriving DecidableEq

/-- Parse an absolute URL of the shape `scheme://host[/path][?query][#frag]`;
`none` models the `TypeError` thrown by `new URL` on malformed input. -/
def parseUrl (s : JStr) : Option UrlModel :=
  match breakAtChar ':' s with
  | (_, none) => none
  | (sch, some rest) =>
    if sch ≠ [] ∧ sch.all isAlphaC then
      match rest with
      | '/' :: '/' :: rest2 =>
        match breakAtChar '#' rest2 with
        | (beforeFrag, frag) =>
          match breakAtChar '?' beforeFrag with
          | (hostpath, qopt) =>
            match breakAtChar '/' hostpath with
            | (host, popt) =>
              if host = [] then none
              else
                some { scheme := sch
                       host := host
                       path := match popt with | some p => '/' :: p | none => []
                       params := match qopt with | some q => parseQuery q | none => []
                       fragment := frag }
      | _ => none
    else none

/-- Re-serialize a structured URL (`url.toString()`). -/
def serializeUrl (u : UrlModel) : JStr :=
  u.scheme ++ ':' :: '/' :: '/' ::
    (u.host ++ u.path
      ++ (match u.params with | [] => [] | _ => '?' :: serializeQuery u.params)
      ++ (match u.fragment with | some f => '#' :: f | none => []))

/-- WHATWG `searchParams.set`: replace the value of the first pair named `n`
and drop the other pairs named `n`; append when `n` is absent. -/
def setParam (ps : List (JStr × JStr)) (n v : JStr) : List (JStr × JStr) :=
  match ps with
  | [] => [(n, v)]
  | (m, w) :: rest =>
    if m = n then (n, v) :: rest.filter (fun p => p.1 ≠ n)
    else (m, w) :: setParam rest n v

/-- WHATWG `searchParams.delete`: remove every pair named `n`. -/
def deleteParam (ps : List (JStr × JStr)) (n : JStr) : List (JStr × JStr) :=
  ps.filter (fun p => p.1 ≠ n)

/-- Parameter-list effect of addUTM: the three `searchParams.set` calls. -/
def setUTM (ps : List (JStr × JStr)) (owner repo : JStr) : List (JStr × JStr) :=
  setParam (setParam (setParam ps ("utm_source").toList ("github").toList) ("utm_medium").toList owner) ("utm_campaign").toList repo

/-- Parameter-list effect of stripUTM: the three `searchParams.delete` calls. -/
def delUTM (ps : List (JStr × JStr)) : List (JStr × JStr) :=
  deleteParam (deleteParam (deleteParam ps ("utm_source").toList) ("utm_medium").toList) ("utm_campaign").toList

/-- The addUTM helper of src/index.js: set the three UTM parameters, or
return the raw string unchanged when it does not parse. -/
def addUTM (rawUrl owner repo : JStr) : JStr :=
  match parseUrl rawUrl with
  | some url => serializeUrl { url with params := setUTM url.params owner repo }
  | none => rawUrl

/-- The stripUTM helper of src/index.js: delete the three UTM parameters, or
return the raw string unchanged when it does not parse. -/
def stripUTM (rawUrl : JStr) : JStr :=
  match parseUrl rawUrl with
  | some url => serializeUrl { url with params := delUTM url.params }
  | none => rawUrl

/-- Shape invariant that `parseUrl` guarantees and that makes
`serializeUrl` parse back to the same structure (no condition on `params`). -/
def UrlWF (u : UrlModel) : Prop :=
  u.scheme ≠ [] ∧ u.scheme.all isAlphaC = true ∧
  u.host ≠ [] ∧ (∀ c ∈ u.host, c ≠ '/' ∧ c ≠ '?' ∧ c ≠ '#') ∧
  (u.path = [] ∨ ∃ p, u.path = '/' :: p) ∧ (∀ c ∈ u.path, c ≠ '?' ∧ c ≠ '#')

/-! Managed-section codec. -/

/-- One tracked entry: the `{ title, url, date }` records of src/index.js. -/
structure LinkR where
  title : JStr
  url : JStr
  date : JStr
deriving DecidableEq

/-- Parse result of `parseSection`: `{ before, after, links }`. -/
structure SectionR where
  before : JStr
  after : JStr
  links : List LinkR
deriving DecidableEq

/-- Date capture of the line regex: exactly `\d{4}-\d{2}-\d{2}`. -/
def isDateShape (d : JStr) : Bool :=
  match d with
  | [a, b, c, e, '-', f, g, '-', h, i] =>
    isDigitC a && isDigitC b && isDigitC c && isDigitC e &&
      isDigitC f && isDigitC g && isDigitC h && isDigitC i
  | _ => false

/-- Match the optional ` - (\d{4}-\d{2}-\d{2})` group at the start of `s`;
returns the captured date and the remainder on success. -/
def tryDate (s : JStr) : Option (JStr × JStr) :=
  match s with
  | ' ' :: '-' :: ' ' :: a :: b :: c :: e :: '-' :: f :: g :: '-' :: h :: i :: r =>
    if isDigitC a && isDigitC b && isDigitC c && isDigitC e &&
        isDigitC f && isDigitC g && isDigitC h && isDigitC i
    then some ([a, b, c, e, '-', f, g, '-', h, i], r)
    else none
  | _ => none

/-- Match `\(([^)]+)\)(?: - (\d{4}-\d{2}-\d{2}))?` at the start of `s`:
returns url, optional date and the remainder after the whole match. -/
def tryUrlDate (s : JStr) : Option (JStr × Option JStr × JStr) :=
  match s with
  | '(' :: rest =>
    match rest.dropWhile (fun c => c ≠ ')') with
    | ')' :: r2 =>
      if rest.takeWhile (fun c => c ≠ ')') = [] then none
      else
        match tryDate r2 with
        | some (d, r3) => some (rest.takeWhile (fun c => c ≠ ')'), some d, r3)
        | none => some (rest.takeWhile (fun c => c ≠ ')'), none, r2)
    | _ => none
  | _ => none

/-- Attempt to close the title at the current position: succeeds when the
next character is `]` and the rest of the pattern matches after it. -/
def titleStop : JStr → Option (JStr × Option JStr × JStr)
  | [] => none
  | c :: rest2 => if c = ']' then tryUrlDate rest2 else none

/-- Match `(.+?)\]` followed by the url/date part, with the regex engine's
lazy backtracking: the title ends at the first `]` from which the rest of
the pattern succeeds; `.` does not cross line terminators. -/
def scanTitleK : JStr → Option (JStr × JStr × Option JStr × JStr)
  | [] => none
  | c :: rest =>
    if c = '\n' ∨ c = '\r' then none
    else
      match titleStop rest with
      | some (u, d, r) => some ([c], u, d, r)
      | none =>
        match scanTitleK rest with
        | some (t2, u, d, r) => some (c :: t2, u, d, r)
        | none => none

/-- Match the full line pattern `^- \[(.+?)\]\(([^)]+)\)(?: - date)?` at a
line start; returns title, url, optional date and the remainder. -/
def matchEntry (s : JStr) : Option (JStr × JStr × Option JStr × JStr) :=
  match s with
  | '-' :: ' ' :: '[' :: rest => scanTitleK rest
  | _ => none

/-- Drop up to and including the next line terminator; `none` when the rest
of the input holds no further line start. -/
def skipLine : JStr → Option JStr
  | [] => none
  | c :: rest => if c = '\n' ∨ c = '\r' then some rest else skipLine rest

/-- Fuel-indexed scanner loop: attempt the line pattern at the current line
start, then continue after the match (regex `lastIndex`) from the next line
start.  The fuel only serves termination; `scanLinks` supplies enough. -/
def scanGo (todayStr : JStr) : Nat → JStr → List LinkR
  | 0, _ => []
  | fuel + 1, s =>
    match matchEntry s with
    | some (t, u, d, r) =>
      { title := t, url := u, date := d.getD todayStr } ::
        (match skipLine r with
         | some r2 => scanGo todayStr fuel r2
         | none => [])
    | none =>
      match skipLine s with
      | some r2 => scanGo todayStr fuel r2
      | none => []

/-- Collect every match of the line regex over the section body, in order
(the `while lineRe.exec` loop); absent dates default to `todayStr`. -/
def scanLinks (todayStr s : JStr) : List LinkR := scanGo todayStr (s.length + 1) s

/-- Marker-absent branch of `parseSection`: the whole document (right-trimmed,
plus a blank line when non-empty) becomes `before`, the section will be newly
appended before a final newline. -/
def fallbackParse (content : JStr) : SectionR :=
  let trimmed := trimEndJS content
  { before := if trimmed = [] then [] else trimmed ++ ('\n' :: '\n' :: [])
    after := ['\n']
    links := [] }

/-- The parseSection helper of src/index.js: locate the first occurrences of
the two markers, fall back when either is absent or start is not strictly
before end, otherwise scan the body strictly between the markers. -/
def parseSection (todayStr content : JStr) : SectionR :=
  match firstOccAux MARKER_START content, firstOccAux MARKER_END content with
  | some si, some ei =>
    if ei ≤ si then fallbackParse content
    else
      { before := content.take si
        after := content.drop (ei + MARKER_END.length)
        links := scanLinks todayStr ((content.take ei).drop (si + MARKER_START.length)) }
  | _, _ => fallbackParse content

/-- Rendering of one record: the template string `- [title](url) - date`. -/
def renderLine (l : LinkR) : JStr :=
  '-' :: ' ' :: '[' :: (l.title ++ ']' :: '(' :: (l.url ++ ')' :: ' ' :: '-' :: ' ' :: l.date))

/-- JS `Array.join` with separator `\n`. -/
def joinNL : List JStr → JStr
  | [] => []
  | [x] => x
  | x :: y :: t => x ++ '\n' :: joinNL (y :: t)

/-- The renderSection helper of src/index.js. -/
def renderSection (links : List LinkR) : JStr :=
  let lines := links.map renderLine
  let body := if lines = [] then ['\n'] else '\n' :: (joinNL lines ++ ['\n'])
  MARKER_START ++ body ++ MARKER_END

/-- Characters allowed in a title for the codec round-trip: no brackets (the
claim's own hypothesis), no `<` (which could open a marker occurrence) and no
line terminators (which the regex `.` cannot cross). -/
def goodTitleChar (c : Char) : Bool :=
  c ≠ '[' ∧ c ≠ ']' ∧ c ≠ '<' ∧ c ≠ '\n' ∧ c ≠ '\r'

/-- Characters allowed in a URL for the codec round-trip: no `)` (the regex
URL group is `[^)]+`), no `<` and no line terminators. -/
def goodUrlChar (c : Char) : Bool :=
  c ≠ ')' ∧ c ≠ '<' ∧ c ≠ '\n' ∧ c ≠ '\r'

/-- Well-formed record for the codec round-trip: non-empty title and url over
the allowed characters, and a date of the exact `\d{4}-\d{2}-\d{2}` shape. -/
def goodLink (l : LinkR) : Bool :=
  l.title ≠ [] && l.title.all goodTitleChar && l.url ≠ [] && l.url.all goodUrlChar &&
    isDateShape l.date

/-- The section body rendered line by line, each line followed by a newline;
equal to `joinNL` of the rendered lines plus a final newline (for a non-empty
list), but shaped for induction. -/
def lineBlock : List LinkR → JStr
  | [] => []
  | l :: rest => renderLine l ++ '\n' :: lineBlock rest

/-- Spec-side rendering of one record, following the words of the spec:
render each record as `- [title](url) - date`. -/
def renderLineSpec (l : LinkR) : JStr :=
  ("- [").toList ++ l.title ++ ("](").toList ++ l.url ++ (") - ").toList ++ l.date

/-- Spec-side serialization, following the words of the spec: join the
rendered lines with newlines, wrap with a leading and trailing newline and
enclose between the two literal marker lines; an empty list renders as the
two markers separated by a single newline. -/
def renderSectionSpec (links : List LinkR) : JStr :=
  if links = [] then MARKER_START ++ '\n' :: MARKER_END
  else MARKER_START ++ '\n' :: (List.intercalate ['\n'] (links.map renderLineSpec) ++ '\n' :: MARKER_END)

/-- Whitespace-collapsing loop of sanitiseTitle (`replace(/\s+/g, ' ')`),
tracking whether the previous character was part of a whitespace run. -/
def collapseGo : Bool → JStr → JStr
  | _, [] => []
  | prevSpace, c :: rest =>
    if isSpaceJS c then
      if prevSpace then collapseGo true rest else ' ' :: collapseGo true rest
    else c :: collapseGo false rest

/-- The sanitiseTitle helper of src/index.js: placeholder for an empty (falsy)
raw title, strip square brackets, collapse whitespace runs, trim. -/
def sanitiseTitle (raw : JStr) : JStr :=
  let base := if raw = [] then ("Untitled").toList else raw
  trimJS (collapseGo false (base.filter (fun c => ¬ (c = '[' ∨ c = ']'))))

/-! Merge engine and run pipeline. -/

/-- JS `parseInt(s, 10)`: leading whitespace, optional sign, leading decimal
digits; `none` models NaN. -/
def parseIntJS (s : JStr) : Option Int :=
  let digitsVal : JStr → Option Nat := fun t =>
    let ds := t.takeWhile isDigitC
    if ds = [] then none
    else some (ds.foldl (fun a c => 10 * a + (c.toNat - 48)) 0)
  let t := s.dropWhile isSpaceJS
  match t with
  | '-' :: rest => (digitsVal rest).map (fun n => -(n : Int))
  | '+' :: rest => (digitsVal rest).map (fun n => (n : Int))
  | _ => (digitsVal t).map (fun n => (n : Int))

/-- The `maxLinks` computation of src/index.js:
`Math.max(1, parseInt(getInput('max_links') || '10', 10))`, where getInput
trims the raw value, and `Math.max(1, NaN) = NaN` is modelled by `none`. -/
def effectiveMaxLinks (raw : JStr) : Option Int :=
  let v := trimJS raw
  let s := if v = [] then ("10").toList else v
  (parseIntJS s).map (fun n => max 1 n)

/-- Step 6 of `run`: prepend the new items, then trim the oldest links when
the length exceeds `maxLinks`; a NaN cap (`none`) never triggers the trim
because `x > NaN` is false.  Returns the final list and `removedCount`. -/
def mergeStep (newItems existingLinks : List LinkR) (maxLinks : Option Int) : List LinkR × Nat :=
  let allLinks := newItems ++ existingLinks
  match maxLinks with
  | some v =>
    if (allLinks.length : Int) > v
    then (allLinks.take v.toNat, allLinks.length - v.toNat)
    else (allLinks, 0)
  | none => (allLinks, 0)

/-- Step 5 of `run`: keep the fresh items whose stripped URL is not the
stripped URL of any existing link. -/
def dedupNew (fresh existingLinks : List LinkR) : List LinkR :=
  let existingBaseUrls := existingLinks.map (fun l => stripUTM l.url)
  fresh.filter (fun item => ¬ existingBaseUrls.contains (stripUTM item.url))

/-- Step 3 of `run`: decorate every fresh item with the UTM parameters. -/
def decorateAll (owner repo : JStr) (items : List LinkR) : List LinkR :=
  items.map (fun i => { i with url := addUTM i.url owner repo })

/-- Seed document used when the output file does not exist. -/
def seedContent : JStr :=
  ("# RSS Links\n\n").toList ++ MARKER_START ++ '\n' :: (MARKER_END ++ ['\n'])

/-- Outcome of a run, after feed fetching: either one of the two early exits
(which write nothing and set the outputs `pr_url` / `new_items_count`), or an
update carrying the new file content and the counts. -/
inductive RunOutcome
  | earlyNoItems (prUrl countStr : JStr)
  | noNewItems (prUrl countStr : JStr)
  | update (newContent : JStr) (newCount removedCount : Nat) (countStr : JStr)
deriving DecidableEq

/-- Digits of a natural number, modelling JS `String(n)`. -/
def natToStr (n : Nat) : JStr := (Nat.repr n).toList

/-- Steps 2b-7 of `run` (after feed fetching, before the git/PR calls):
early exit when nothing was fetched; otherwise decorate, parse the existing
file (or the seed), deduplicate, early exit with outputs `""`/`"0"` when no
new items remain, else merge under the cap and rebuild the document. -/
def runCore (owner repo todayStr maxRaw : JStr) (freshItems : List LinkR)
    (existing : Option JStr) : RunOutcome :=
  if freshItems = [] then .earlyNoItems [] ['0']
  else
    let decorated := decorateAll owner repo freshItems
    let content := match existing with | some c => c | none => seedContent
    let sec := parseSection todayStr content
    let newItems := dedupNew decorated sec.links
    if newItems = [] then .noNewItems [] ['0']
    else
      let merged := mergeStep newItems sec.links (effectiveMaxLinks maxRaw)
      .update (sec.before ++ renderSection merged.1 ++ sec.after)
        newItems.length merged.2 (natToStr newItems.length)

/-! Basic lemmas about the string helpers. -/

theorem breakAtChar_not_mem {sep : Char} : ∀ {s : JStr}, sep ∉ s → breakAtChar sep s = (s, none) := by
  intro s
  induction s with
  | nil => intro _; rfl
  | cons c rest ih =>
    intro h
    simp only [List.mem_cons, not_or] at h
    simp [breakAtChar, Ne.symm h.1, ih h.2]

theorem breakAtChar_append {sep : Char} (b : JStr) : ∀ {a : JStr}, sep ∉ a → breakAtChar sep (a ++ sep :: b) = (a, some b) := by
  intro a
  induction a with
  | nil => intro _; simp [breakAtChar]
  | cons c rest ih =>
    intro h
    simp only [List.mem_cons, not_or] at h
    simp [breakAtChar, Ne.symm h.1, ih h.2]

theorem breakAtChar_some_eq {sep : Char} : ∀ {s a b : JStr}, breakAtChar sep s = (a, some b) → s = a ++ sep :: b := by
  intro s
  induction s with
  | nil => intro a b h; simp [breakAtChar] at h
  | cons c rest ih =>
    intro a b h
    by_cases hc : c = sep
    · subst hc
      simp only [breakAtChar, if_true, eq_self_iff_true, if_pos, Prod.mk.injEq, Option.some.injEq] at h
      rw [← h.1, ← h.2]
      rfl
    · rcases hbr : breakAtChar sep rest with ⟨a1, o⟩
      simp only [breakAtChar, if_neg hc, hbr, Prod.mk.injEq] at h
      obtain ⟨rfl, rfl⟩ := h
      rw [ih hbr]
      rfl

theorem breakAtChar_none_eq {sep : Char} : ∀ {s a : JStr}, breakAtChar sep s = (a, none) → a = s := by
  intro s
  induction s with
  | nil =>
    intro a h
    simp only [breakAtChar, Prod.mk.injEq] at h
    exact h.1.symm
  | cons c rest ih =>
    intro a h
    by_cases hc : c = sep
    · simp [breakAtChar, hc] at h
    · rcases hbr : breakAtChar sep rest with ⟨a1, o⟩
      simp only [breakAtChar, if_neg hc, hbr, Prod.mk.injEq] at h
      obtain ⟨rfl, rfl⟩ := h
      rw [ih hbr]

theorem breakAtChar_fst_not_mem (sep : Char) : ∀ (s : JStr), sep ∉ (breakAtChar sep s).1 := by
  intro s
  induction s with
  | nil => simp [breakAtChar]
  | cons c rest ih =>
    by_cases hc : c = sep
    · simp [breakAtChar, hc]
    · simpa [breakAtChar, hc] using ⟨fun h => hc h.symm, ih⟩

theorem splitOnChar_not_mem {sep : Char} : ∀ {s : JStr}, sep ∉ s → splitOnChar sep s = [s] := by
  intro s
  induction s with
  | nil => intro _; rfl
  | cons c rest ih =>
    intro h
    simp only [List.mem_cons, not_or] at h
    simp [splitOnChar, Ne.symm h.1, ih h.2]

theorem splitOnChar_append {sep : Char} (b : JStr) : ∀ {a : JStr}, sep ∉ a → splitOnChar sep (a ++ sep :: b) = a :: splitOnChar sep b := by
  intro a
  induction a with
  | nil => intro _; simp [splitOnChar]
  | cons c rest ih =>
    intro h
    simp only [List.mem_cons, not_or] at h
    have hne : splitOnChar sep (rest ++ sep :: b) = rest :: splitOnChar sep b := ih h.2
    simp [splitOnChar, Ne.symm h.1, hne]

theorem isPrefixOf_append_self : ∀ (p t : JStr), p.isPrefixOf (p ++ t) = true := by
  intro p t
  induction p with
  | nil => simp
  | cons c rest ih => simp [List.isPrefixOf_cons₂, ih]

theorem eq_append_of_isPrefixOf : ∀ {p s : JStr}, p.isPrefixOf s = true → ∃ t, s = p ++ t := by
  intro p
  induction p with
  | nil => intro s _; exact ⟨s, rfl⟩
  | cons c rest ih =>
    intro s h
    cases s with
    | nil => simp [List.isPrefixOf] at h
    | cons d ds =>
      simp only [List.isPrefixOf, Bool.and_eq_true, beq_iff_eq] at h
      obtain ⟨rfl, h2⟩ := h
      obtain ⟨t, rfl⟩ := ih h2
      exact ⟨t, rfl⟩

theorem take_of_isPrefixOf {p s : JStr} (h : p.isPrefixOf s = true) : s.take p.length = p := by
  obtain ⟨t, rfl⟩ := eq_append_of_isPrefixOf h
  exact List.take_left p t

theorem firstOccAux_of_isPrefixOf {pat : JStr} : ∀ {s : JStr}, pat.isPrefixOf s = true → firstOccAux pat s = some 0 := by
  intro s h
  cases s with
  | nil => simp [firstOccAux, h]
  | cons c rest => simp [firstOccAux, h]

theorem firstOccAux_append_pat (pat : JStr) : ∀ (a : JStr), (∀ j, j < a.length → pat.isPrefixOf (a.drop j ++ pat) = false) → firstOccAux pat (a ++ pat) = some a.length := by
  intro a
  induction a with
  | nil =>
    intro _
    have hp : pat.isPrefixOf pat = true := by
      have h2 := isPrefixOf_append_self pat []
      rwa [List.append_nil] at h2
    simpa using firstOccAux_of_isPrefixOf hp
  | cons c rest ih =>
    intro h
    have h0 : pat.isPrefixOf (c :: (rest ++ pat)) = false := by
      have := h 0 (by simp)
      simpa using this
    have hrec := ih (fun j hj => by
      have := h (j + 1) (by simpa using Nat.succ_lt_succ hj)
      simpa using this)
    simp [firstOccAux, h0, hrec]

/-! Lemmas about the URL model. -/

theorem decodeQ_pct {x y : Char} {a b : Nat} (t : JStr) (hx : hexVal x = some a) (hy : hexVal y = some b) :
    decodeQ ('%' :: x :: y :: t) = Char.ofNat (16 * a + b) :: decodeQ t := by
  rw [decodeQ]
  simp [hx, hy]

theorem decodeQ_plain {c : Char} (t : JStr) (h1 : c ≠ '+') (h2 : c ≠ '%') :
    decodeQ (c :: t) = c :: decodeQ t := by
  rw [decodeQ]
  simp [h1, h2]

theorem decodeQ_encodeC (c : Char) (t : JStr) : decodeQ (encodeC c ++ t) = c :: decodeQ t := by
  by_cases h1 : c = '%'
  · subst h1
    rw [show encodeC '%' ++ t = '%' :: '2' :: '5' :: t from rfl]
    rw [decodeQ_pct (a := 2) (b := 5) t (by decide) (by decide)]
  · by_cases h2 : c = '&'
    · subst h2
      rw [show encodeC '&' ++ t = '%' :: '2' :: '6' :: t from rfl]
      rw [decodeQ_pct (a := 2) (b := 6) t (by decide) (by decide)]
    · by_cases h3 : c = '='
      · subst h3
        rw [show encodeC '=' ++ t = '%' :: '3' :: 'D' :: t from rfl]
        rw [decodeQ_pct (a := 3) (b := 13) t (by decide) (by decide)]
      · by_cases h4 : c = '#'
        · subst h4
          rw [show encodeC '#' ++ t = '%' :: '2' :: '3' :: t from rfl]
          rw [decodeQ_pct (a := 2) (b := 3) t (by decide) (by decide)]
        · by_cases h5 : c = '+'
          · subst h5
            rw [show encodeC '+' ++ t = '%' :: '2' :: 'B' :: t from rfl]
            rw [decodeQ_pct (a := 2) (b := 11) t (by decide) (by decide)]
          · rw [show encodeC c = [c] from by simp [encodeC, h1, h2, h3, h4, h5]]
            exact decodeQ_plain t h5 h1

theorem decodeQ_encodeQ : ∀ (s : JStr), decodeQ (encodeQ s) = s := by
  intro s
  induction s with
  | nil => rfl
  | cons c rest ih => rw [encodeQ, decodeQ_encodeC, ih]

theorem mem_encodeC_ne_delim {c x : Char} (h : x ∈ encodeC c) : x ≠ '&' ∧ x ≠ '=' ∧ x ≠ '#' := by
  by_cases h1 : c = '%'
  · subst h1
    have hx : x = '%' ∨ x = '2' ∨ x = '5' := by simpa [encodeC] using h
    rcases hx with rfl | rfl | rfl <;> decide
  · by_cases h2 : c = '&'
    · subst h2
      have hx : x = '%' ∨ x = '2' ∨ x = '6' := by simpa [encodeC] using h
      rcases hx with rfl | rfl | rfl <;> decide
    · by_cases h3 : c = '='
      · subst h3
        have hx : x = '%' ∨ x = '3' ∨ x = 'D' := by simpa [encodeC] using h
        rcases hx with rfl | rfl | rfl <;> decide
      · by_cases h4 : c = '#'
        · subst h4
          have hx : x = '%' ∨ x = '2' ∨ x = '3' := by simpa [encodeC] using h
          rcases hx with rfl | rfl | rfl <;> decide
        · by_cases h5 : c = '+'
          · subst h5
            have hx : x = '%' ∨ x = '2' ∨ x = 'B' := by simpa [encodeC] using h
            rcases hx with rfl | rfl | rfl <;> decide
          · simp only [encodeC, if_neg h1, if_neg h2, if_neg h3, if_neg h4, if_neg h5,
              List.mem_singleton] at h
            subst h
            exact ⟨h2, h3, h4⟩

theorem mem_encodeQ_ne_delim {s : JStr} {x : Char} (h : x ∈ encodeQ s) : x ≠ '&' ∧ x ≠ '=' ∧ x ≠ '#' := by
  induction s with
  | nil => simp [encodeQ] at h
  | cons c rest ih =>
    rw [encodeQ] at h
    rcases List.mem_append.mp h with hc | hr
    · exact mem_encodeC_ne_delim hc
    · exact ih hr

theorem amp_not_mem_seg {n v : JStr} : '&' ∉ encodeQ n ++ '=' :: encodeQ v := by
  intro h
  rcases List.mem_append.mp h with hc | hr
  · exact (mem_encodeQ_ne_delim hc).1 rfl
  · rcases List.mem_cons.mp hr with he | hv
    · exact absurd he (by decide)
    · exact (mem_encodeQ_ne_delim hv).1 rfl

theorem eq_not_mem_encodeQ {n : JStr} : '=' ∉ encodeQ n := by
  intro h
  exact (mem_encodeQ_ne_delim h).2.1 rfl

theorem serializeQuery_cons_cons (n v : JStr) (q : JStr × JStr) (qs : List (JStr × JStr)) :
    serializeQuery ((n, v) :: q :: qs) = (encodeQ n ++ '=' :: encodeQ v) ++ '&' :: serializeQuery (q :: qs) := by
  show encodeQ n ++ '=' :: encodeQ v ++ '&' :: serializeQuery (q :: qs) = _
  simp

theorem hash_not_mem_serializeQuery : ∀ (ps : List (JStr × JStr)), '#' ∉ serializeQuery ps := by
  intro ps
  induction ps with
  | nil => simp [serializeQuery]
  | cons p rest ih =>
    obtain ⟨n, v⟩ := p
    cases rest with
    | nil =>
      show '#' ∉ encodeQ n ++ '=' :: encodeQ v
      intro h
      rcases List.mem_append.mp h with hc | hr
      · exact (mem_encodeQ_ne_delim hc).2.2 rfl
      · rcases List.mem_cons.mp hr with he | hv
        · exact absurd he (by decide)
        · exact (mem_encodeQ_ne_delim hv).2.2 rfl
    | cons q qs =>
      rw [serializeQuery_cons_cons]
      intro h
      rcases List.mem_append.mp h with hc | hr
      · rcases List.mem_append.mp hc with hc1 | hc2
        · exact (mem_encodeQ_ne_delim hc1).2.2 rfl
        · rcases List.mem_cons.mp hc2 with he | hv
          · exact absurd he (by decide)
          · exact (mem_encodeQ_ne_delim hv).2.2 rfl
      · rcases List.mem_cons.mp hr with ha | hs
        · exact absurd ha (by decide)
        · exact ih hs

theorem parseQuery_seg (n v : JStr) : parseQuery (encodeQ n ++ '=' :: encodeQ v) = [(n, v)] := by
  rw [parseQuery, splitOnChar_not_mem amp_not_mem_seg]
  rw [List.filter_cons_of_pos (by simp)]
  simp only [List.filter_nil, List.map_cons, List.map_nil]
  rw [breakAtChar_append (encodeQ v) eq_not_mem_encodeQ]
  show [((decodeQ (encodeQ n) : JStr), (decodeQ (encodeQ v) : JStr))] = [(n, v)]
  rw [decodeQ_encodeQ, decodeQ_encodeQ]

theorem parseQuery_cons_seg (n v : JStr) (tail : JStr) :
    parseQuery ((encodeQ n ++ '=' :: encodeQ v) ++ '&' :: tail) = (n, v) :: parseQuery tail := by
  rw [parseQuery, splitOnChar_append _ amp_not_mem_seg]
  rw [List.filter_cons_of_pos (by simp)]
  rw [List.map_cons]
  rw [breakAtChar_append (encodeQ v) eq_not_mem_encodeQ]
  show ((decodeQ (encodeQ n) : JStr), (decodeQ (encodeQ v) : JStr)) :: _ = _
  rw [decodeQ_encodeQ, decodeQ_encodeQ]
  rfl

theorem parseQuery_serializeQuery : ∀ (ps : List (JStr × JStr)), parseQuery (serializeQuery ps) = ps := by
  intro ps
  induction ps with
  | nil => rfl
  | cons p rest ih =>
    obtain ⟨n, v⟩ := p
    cases rest with
    | nil =>
      show parseQuery (encodeQ n ++ '=' :: encodeQ v) = [(n, v)]
      exact parseQuery_seg n v
    | cons q qs =>
      rw [serializeQuery_cons_cons, parseQuery_cons_seg, ih]

theorem filter_setParam {f : JStr × JStr → Bool} {n : JStr} (hf : ∀ w, f (n, w) = false) (v : JStr) :
    ∀ (ps : List (JStr × JStr)), (setParam ps n v).filter f = ps.filter f := by
  intro ps
  induction ps with
  | nil => simp [setParam, List.filter_cons, hf v]
  | cons p rest ih =>
    obtain ⟨m, w⟩ := p
    by_cases hm : m = n
    · subst hm
      rw [setParam, if_pos rfl]
      rw [List.filter_cons_of_neg (by simpa using hf v)]
      rw [List.filter_cons_of_neg (by simpa using hf w)]
      rw [List.filter_filter]
      apply List.filter_congr
      intro p _
      by_cases hp : p.1 = m
      · have : f p = false := by
          have := hf p.2
          rw [← hp] at this
          simpa using this
        simp [this]
      · simp [hp]
    · rw [setParam, if_neg hm]
      rw [List.filter_cons, List.filter_cons, ih]

theorem parseUrl_build (sch host : JStr) (rest2 beforeFrag hostpath : JStr)
    (frag qopt popt : Option JStr)
    (hs1 : sch ≠ []) (hs2 : sch.all isAlphaC = true) (hcolon : ':' ∉ sch)
    (hh1 : host ≠ [])
    (hbf : breakAtChar '#' rest2 = (beforeFrag, frag))
    (hhq : breakAtChar '?' beforeFrag = (hostpath, qopt))
    (hhp : breakAtChar '/' hostpath = (host, popt)) :
    parseUrl (sch ++ ':' :: '/' :: '/' :: rest2) =
      some { scheme := sch
             host := host
             path := match popt with | some p => '/' :: p | none => []
             params := match qopt with | some q => parseQuery q | none => []
             fragment := frag } := by
  unfold parseUrl
  rw [breakAtChar_append _ hcolon]
  simp only [hbf, hhq, hhp, if_pos (And.intro hs1 hs2), if_neg hh1]
  cases popt <;> cases qopt <;> rfl

theorem parseUrl_wf : ∀ {s : JStr} {u : UrlModel}, parseUrl s = some u → UrlWF u := by
  intro s u h
  unfold parseUrl at h
  rcases hb : breakAtChar ':' s with ⟨sch, ro⟩
  rw [hb] at h
  cases ro with
  | none => simp at h
  | some rest =>
    simp only [] at h
    by_cases hcond : sch ≠ [] ∧ sch.all isAlphaC
    · rw [if_pos hcond] at h
      split at h
      · rename_i rest2
        rcases hbf : breakAtChar '#' rest2 with ⟨bf, frag⟩
        rw [hbf] at h
        rcases hhq : breakAtChar '?' bf with ⟨hostpath, qopt⟩
        rw [hhq] at h
        rcases hhp : breakAtChar '/' hostpath with ⟨host, popt⟩
        rw [hhp] at h
        by_cases hh : host = []
        · rw [if_pos hh] at h; simp at h
        · rw [if_neg hh] at h
          have hu := Option.some.inj h
          subst hu
          have hslash : '/' ∉ host := by
            have hm := breakAtChar_fst_not_mem '/' hostpath
            rw [hhp] at hm
            exact hm
          have hques : '?' ∉ hostpath := by
            have hm := breakAtChar_fst_not_mem '?' bf
            rw [hhq] at hm
            exact hm
          have hhash : '#' ∉ bf := by
            have hm := breakAtChar_fst_not_mem '#' rest2
            rw [hbf] at hm
            exact hm
          have hsub1 : ∀ c, c ∈ host → c ∈ hostpath := by
            cases popt with
            | none =>
              have he := breakAtChar_none_eq hhp
              intro c hc
              exact he ▸ hc
            | some p =>
              have he := breakAtChar_some_eq hhp
              intro c hc
              rw [he]
              exact List.mem_append.mpr (Or.inl hc)
          have hsub2 : ∀ c, c ∈ hostpath → c ∈ bf := by
            cases qopt with
            | none =>
              have he := breakAtChar_none_eq hhq
              intro c hc
              exact he ▸ hc
            | some q =>
              have he := breakAtChar_some_eq hhq
              intro c hc
              rw [he]
              exact List.mem_append.mpr (Or.inl hc)
          refine ⟨hcond.1, hcond.2, hh, ?_, ?_, ?_⟩
          · intro c hc
            refine ⟨fun hcs => hslash (hcs ▸ hc), ?_, ?_⟩
            · exact fun hcq => hques (hcq ▸ hsub1 c hc)
            · exact fun hch => hhash (hch ▸ hsub2 _ (hsub1 c hc))
          · cases popt with
            | none => exact Or.inl rfl
            | some p => exact Or.inr ⟨p, rfl⟩
          · cases popt with
            | none => intro c hc; simp at hc
            | some p =>
              intro c hc
              have he := breakAtChar_some_eq hhp
              rcases List.mem_cons.mp hc with hc1 | hc2
              · subst hc1
                exact ⟨by decide, by decide⟩
              · have hmem : c ∈ hostpath := by
                  rw [he]
                  exact List.mem_append.mpr (Or.inr (List.mem_cons_of_mem _ hc2))
                refine ⟨fun hcq => hques (hcq ▸ hmem), fun hch => hhash (hch ▸ hsub2 _ hmem)⟩
      · exact absurd h (by simp)
    · rw [if_neg hcond] at h
      simp at h

theorem parseUrl_serializeUrl {u : UrlModel} (h : UrlWF u) : parseUrl (serializeUrl u) = some u := by
  obtain ⟨sch, host, path, ps, frag⟩ := u
  obtain ⟨hs1, hs2, hh1, hh2, hpshape, hp2⟩ := h
  simp only [] at hs1 hs2 hh1 hh2 hpshape hp2
  have hcolon : ':' ∉ sch := by
    intro hm
    exact absurd ((List.all_eq_true.mp hs2) _ hm) (by decide)
  have hns : '/' ∉ host := fun hm => (hh2 _ hm).1 rfl
  have hnq : '?' ∉ host ++ path := by
    intro hm
    rcases List.mem_append.mp hm with hmh | hmp
    · exact (hh2 _ hmh).2.1 rfl
    · exact (hp2 _ hmp).1 rfl
  have hnh : '#' ∉ host ++ path := by
    intro hm
    rcases List.mem_append.mp hm with hmh | hmp
    · exact (hh2 _ hmh).2.2 rfl
    · exact (hp2 _ hmp).2 rfl
  have hhp : breakAtChar '/' (host ++ path) = (host, if path = [] then none else some (path.drop 1)) := by
    rcases hpshape with hpe | ⟨p, hpe⟩
    · rw [hpe, List.append_nil, if_pos rfl]
      exact breakAtChar_not_mem hns
    · rw [hpe, if_neg (by simp)]
      exact breakAtChar_append p hns
  cases frag with
  | none =>
    cases ps with
    | nil =>
      show parseUrl (sch ++ ':' :: '/' :: '/' :: (((host ++ path) ++ []) ++ [])) = _
      rw [List.append_nil, List.append_nil]
      rw [parseUrl_build sch host _ _ _ none none _ hs1 hs2 hcolon hh1
        (breakAtChar_not_mem hnh) (breakAtChar_not_mem hnq) hhp]
      rcases hpshape with hpe | ⟨p2, hpe⟩ <;> subst hpe <;> simp
    | cons q qs =>
      show parseUrl (sch ++ ':' :: '/' :: '/' ::
        (((host ++ path) ++ '?' :: serializeQuery (q :: qs)) ++ [])) = _
      rw [List.append_nil]
      have hnh2 : '#' ∉ (host ++ path) ++ '?' :: serializeQuery (q :: qs) := by
        intro hm
        rcases List.mem_append.mp hm with h1 | h2
        · exact hnh h1
        · rcases List.mem_cons.mp h2 with he | hs
          · exact absurd he (by decide)
          · exact hash_not_mem_serializeQuery _ hs
      rw [parseUrl_build sch host _ _ _ none (some (serializeQuery (q :: qs))) _ hs1 hs2 hcolon hh1
        (breakAtChar_not_mem hnh2) (breakAtChar_append _ hnq) hhp]
      rcases hpshape with hpe | ⟨p2, hpe⟩ <;> subst hpe <;> simp [parseQuery_serializeQuery]
  | some f =>
    cases ps with
    | nil =>
      show parseUrl (sch ++ ':' :: '/' :: '/' :: (((host ++ path) ++ []) ++ '#' :: f)) = _
      rw [List.append_nil]
      rw [parseUrl_build sch host _ _ _ (some f) none _ hs1 hs2 hcolon hh1
        (breakAtChar_append f hnh) (breakAtChar_not_mem hnq) hhp]
      rcases hpshape with hpe | ⟨p2, hpe⟩ <;> subst hpe <;> simp
    | cons q qs =>
      show parseUrl (sch ++ ':' :: '/' :: '/' ::
        (((host ++ path) ++ '?' :: serializeQuery (q :: qs)) ++ '#' :: f)) = _
      have hnh2 : '#' ∉ (host ++ path) ++ '?' :: serializeQuery (q :: qs) := by
        intro hm
        rcases List.mem_append.mp hm with h1 | h2
        · exact hnh h1
        · rcases List.mem_cons.mp h2 with he | hs
          · exact absurd he (by decide)
          · exact hash_not_mem_serializeQuery _ hs
      rw [parseUrl_build sch host _ _ _ (some f) (some (serializeQuery (q :: qs))) _ hs1 hs2 hcolon hh1
        (breakAtChar_append f hnh2) (breakAtChar_append _ hnq) hhp]
      rcases hpshape with hpe | ⟨p2, hpe⟩ <;> subst hpe <;> simp [parseQuery_serializeQuery]


theorem delUTM_setUTM (ps : List (JStr × JStr)) (o r : JStr) : delUTM (setUTM ps o r) = delUTM ps := by
  unfold delUTM deleteParam setUTM
  rw [List.filter_filter, List.filter_filter, List.filter_filter, List.filter_filter]
  rw [filter_setParam (fun w => by simp) r]
  rw [filter_setParam (fun w => by simp) o]
  rw [filter_setParam (fun w => by simp) (("github").toList)]

/-- C4: for every URL string that parses, and any owner and repo tags,
canonicalizing the decorated URL gives the same string as canonicalizing the
original URL: decoration only touches the three UTM query keys, and
canonicalization removes exactly those keys, so
`stripUTM (addUTM u o r) = stripUTM u`. -/
theorem addUTM_stripUTM_roundtrip (u o r : JStr) (h : (parseUrl u).isSome = true) :
    stripUTM (addUTM u o r) = stripUTM u := by
  obtain ⟨url, hu⟩ := Option.isSome_iff_exists.mp h
  have hwf := parseUrl_wf hu
  have hwf2 : UrlWF { url with params := setUTM url.params o r } := by
    obtain ⟨a1, a2, a3, a4, a5, a6⟩ := hwf
    exact ⟨a1, a2, a3, a4, a5, a6⟩
  have e1 : addUTM u o r = serializeUrl { url with params := setUTM url.params o r } := by
    unfold addUTM
    rw [hu]
  have e2 : stripUTM (serializeUrl { url with params := setUTM url.params o r })
      = serializeUrl { url with params := delUTM (setUTM url.params o r) } := by
    unfold stripUTM
    rw [parseUrl_serializeUrl hwf2]
  have e3 : stripUTM u = serializeUrl { url with params := delUTM url.params } := by
    unfold stripUTM
    rw [hu]
  rw [e1, e2, e3, delUTM_setUTM]

/-- Witness for C4 at a concrete URL, owner and repo. -/
theorem addUTM_stripUTM_roundtrip_witness :
    (parseUrl ("https://x.com/a?b=1&utm_source=z").toList).isSome = true ∧
    stripUTM (addUTM ("https://x.com/a?b=1&utm_source=z").toList ("own").toList ("rep").toList)
      = stripUTM ("https://x.com/a?b=1&utm_source=z").toList :=
  ⟨by decide, addUTM_stripUTM_roundtrip _ _ _ (by decide)⟩

/-- C8: a string that does not parse as an absolute URL is returned unchanged
by both `addUTM` and `stripUTM`; the JS `catch` branch recovers locally, so a
malformed URL never aborts the run (both functions are total). -/
theorem malformed_url_unchanged (s o r : JStr) (h : parseUrl s = none) :
    addUTM s o r = s ∧ stripUTM s = s := by
  constructor
  · unfold addUTM
    rw [h]
  · unfold stripUTM
    rw [h]

/-- Witness for C8 at a concrete malformed string. -/
theorem malformed_url_unchanged_witness :
    parseUrl ("not a url").toList = none ∧
    (addUTM ("not a url").toList ("o").toList ("r").toList = ("not a url").toList ∧
      stripUTM ("not a url").toList = ("not a url").toList) :=
  ⟨by decide, malformed_url_unchanged _ (("o").toList) (("r").toList) (by decide)⟩

/-! Lemmas about the managed-section codec. -/

theorem goodLink_spec {l : LinkR} (h : goodLink l = true) :
    l.title ≠ [] ∧ (∀ c ∈ l.title, c ≠ '[' ∧ c ≠ ']' ∧ c ≠ '<' ∧ c ≠ '\n' ∧ c ≠ '\r') ∧
    l.url ≠ [] ∧ (∀ c ∈ l.url, c ≠ ')' ∧ c ≠ '<' ∧ c ≠ '\n' ∧ c ≠ '\r') ∧
    isDateShape l.date = true := by
  unfold goodLink at h
  simp only [Bool.and_eq_true, List.all_eq_true, decide_eq_true_eq, goodTitleChar,
    goodUrlChar, ne_eq] at h
  obtain ⟨⟨⟨⟨h1, h2⟩, h3⟩, h4⟩, h5⟩ := h
  exact ⟨h1, h2, h3, h4, h5⟩

theorem mem_dateShape {d : JStr} (hd : isDateShape d = true) :
    ∀ c ∈ d, isDigitC c = true ∨ c = '-' := by
  unfold isDateShape at hd
  split at hd
  · rename_i a b c e f g h i
    simp only [Bool.and_eq_true] at hd
    obtain ⟨⟨⟨⟨⟨⟨⟨d1, d2⟩, d3⟩, d4⟩, d5⟩, d6⟩, d7⟩, d8⟩ := hd
    intro x hx
    simp only [List.mem_cons, List.not_mem_nil, or_false] at hx
    rcases hx with rfl | rfl | rfl | rfl | rfl | rfl | rfl | rfl | rfl | rfl
    · exact Or.inl d1
    · exact Or.inl d2
    · exact Or.inl d3
    · exact Or.inl d4
    · exact Or.inr rfl
    · exact Or.inl d5
    · exact Or.inl d6
    · exact Or.inr rfl
    · exact Or.inl d7
    · exact Or.inl d8
  · exact absurd hd (by simp)

theorem isDigitC_ne_lt {c : Char} (h : isDigitC c = true) : c ≠ '<' := by
  intro hc
  subst hc
  exact absurd h (by decide)

theorem dateShape_ne_lt {d : JStr} (hd : isDateShape d = true) : ∀ c ∈ d, c ≠ '<' := by
  intro c hc
  rcases mem_dateShape hd c hc with hdig | hdash
  · exact isDigitC_ne_lt hdig
  · subst hdash
    decide

theorem mem_renderLine {l : LinkR} {x : Char} (h : x ∈ renderLine l) :
    x ∈ l.title ∨ x ∈ l.url ∨ x ∈ l.date ∨ x ∈ ['-', ' ', '[', ']', '(', ')'] := by
  unfold renderLine at h
  simp only [List.mem_cons, List.mem_append] at h
  rcases h with rfl | rfl | rfl | h
  · exact Or.inr (Or.inr (Or.inr (by decide)))
  · exact Or.inr (Or.inr (Or.inr (by decide)))
  · exact Or.inr (Or.inr (Or.inr (by decide)))
  · rcases h with ht | h
    · exact Or.inl ht
    · rcases h with rfl | rfl | h
      · exact Or.inr (Or.inr (Or.inr (by decide)))
      · exact Or.inr (Or.inr (Or.inr (by decide)))
      · rcases h with hu | h
        · exact Or.inr (Or.inl hu)
        · rcases h with rfl | rfl | rfl | rfl | hd
          · exact Or.inr (Or.inr (Or.inr (by decide)))
          · exact Or.inr (Or.inr (Or.inr (by decide)))
          · exact Or.inr (Or.inr (Or.inr (by decide)))
          · exact Or.inr (Or.inr (Or.inr (by decide)))
          · exact Or.inr (Or.inr (Or.inl hd))

theorem lt_not_mem_lineBlock : ∀ {links : List LinkR}, links.all goodLink = true →
    '<' ∉ lineBlock links := by
  intro links
  induction links with
  | nil => intro _; simp [lineBlock]
  | cons l rest ih =>
    intro hall
    rw [List.all_cons, Bool.and_eq_true] at hall
    obtain ⟨hl, hrest⟩ := hall
    obtain ⟨_, ht, _, hu, hd⟩ := goodLink_spec hl
    intro hm
    rw [lineBlock] at hm
    rcases List.mem_append.mp hm with hm1 | hm2
    · rcases mem_renderLine hm1 with hx | hx | hx | hx
      · exact (ht _ hx).2.2.1 rfl
      · exact (hu _ hx).2.1 rfl
      · exact dateShape_ne_lt hd _ hx rfl
      · revert hx
        decide
    · rcases List.mem_cons.mp hm2 with he | hm3
      · exact absurd he (by decide)
      · exact ih hrest hm3

theorem joinNL_block : ∀ (ls : List LinkR), ls ≠ [] →
    joinNL (ls.map renderLine) ++ ['\n'] = lineBlock ls := by
  intro ls
  induction ls with
  | nil => intro h; exact absurd rfl h
  | cons l rest ih =>
    intro _
    cases rest with
    | nil => simp [joinNL, lineBlock]
    | cons r rs =>
      rw [List.map_cons, lineBlock]
      rw [show joinNL (renderLine l :: (r :: rs).map renderLine)
          = renderLine l ++ '\n' :: joinNL ((r :: rs).map renderLine) from by
        rw [List.map_cons]; rfl]
      rw [List.append_assoc, List.cons_append, ih (by simp)]

theorem renderSection_block (links : List LinkR) :
    renderSection links = (MARKER_START ++ '\n' :: lineBlock links) ++ MARKER_END := by
  cases links with
  | nil => rfl
  | cons l rest =>
    simp only [renderSection]
    rw [if_neg (by simp)]
    rw [show (joinNL ((l :: rest).map renderLine) ++ ['\n'] : JStr)
        = lineBlock (l :: rest) from joinNL_block _ (by simp)]

theorem mend_not_isPrefixOf_start (z : JStr) :
    MARKER_END.isPrefixOf (MARKER_START ++ z) = false := rfl

theorem firstOcc_tail (pat : JStr) (c0 : Char) (t0 : JStr) (hpat : pat = c0 :: t0) :
    ∀ (a : JStr), (a = [] ∨ pat.isPrefixOf (a ++ pat) = false) → (∀ c ∈ a.drop 1, c ≠ c0) →
    firstOccAux pat (a ++ pat) = some a.length := by
  intro a
  induction a with
  | nil =>
    intro _ _
    have hp : pat.isPrefixOf pat = true := by
      have h2 := isPrefixOf_append_self pat []
      rwa [List.append_nil] at h2
    simpa using firstOccAux_of_isPrefixOf hp
  | cons c rest ih =>
    intro h0 h1
    rcases h0 with h0 | h0
    · exact absurd h0 (by simp)
    · have h0b : pat.isPrefixOf (c :: (rest ++ pat)) = false := by
        rw [← List.cons_append]
        exact h0
      have hstep : firstOccAux pat ((c :: rest) ++ pat)
          = (firstOccAux pat (rest ++ pat)).map (fun n => n + 1) := by
        rw [List.cons_append, firstOccAux, h0b]
        simp
      rw [hstep]
      have hrec : firstOccAux pat (rest ++ pat) = some rest.length := by
        apply ih
        · cases rest with
          | nil => exact Or.inl rfl
          | cons c2 rest2 =>
            refine Or.inr ?_
            have hc2 : c2 ≠ c0 := h1 c2 (by simp)
            rw [hpat, List.cons_append, List.isPrefixOf_cons₂]
            simp [Ne.symm hc2]
        · intro c2 hc2
          exact h1 c2 (List.drop_subset 1 rest hc2)
      rw [hrec]
      rfl

theorem takeWhile_closeParen : ∀ {u : JStr}, (∀ c ∈ u, c ≠ ')') → ∀ (r : JStr),
    (u ++ ')' :: r).takeWhile (fun c => c ≠ ')') = u ∧
    (u ++ ')' :: r).dropWhile (fun c => c ≠ ')') = ')' :: r := by
  intro u
  induction u with
  | nil => intro _ r; constructor <;> simp
  | cons c u2 ih =>
    intro hu r
    have hc : c ≠ ')' := hu c (by simp)
    obtain ⟨ih1, ih2⟩ := ih (fun d hd => hu d (List.mem_cons_of_mem _ hd)) r
    constructor
    · rw [List.cons_append, List.takeWhile_cons, if_pos (by simp [hc]), ih1]
    · rw [List.cons_append, List.dropWhile_cons, if_pos (by simp [hc]), ih2]

theorem tryDate_shape {d : JStr} (hd : isDateShape d = true) (k : JStr) :
    tryDate (' ' :: '-' :: ' ' :: (d ++ k)) = some (d, k) := by
  unfold isDateShape at hd
  split at hd
  · rename_i a b c e f g h i
    rw [show (([a, b, c, e, '-', f, g, '-', h, i] : JStr) ++ k)
        = a :: b :: c :: e :: '-' :: f :: g :: '-' :: h :: i :: k from rfl]
    rw [tryDate, if_pos hd]
  · exact absurd hd (by simp)

theorem tryUrlDate_shape {u d : JStr} (hu1 : u ≠ []) (hu2 : ∀ c ∈ u, c ≠ ')')
    (hd : isDateShape d = true) (k : JStr) :
    tryUrlDate ('(' :: (u ++ ')' :: ' ' :: '-' :: ' ' :: (d ++ k))) = some (u, some d, k) := by
  obtain ⟨ht, hdw⟩ := takeWhile_closeParen hu2 (' ' :: '-' :: ' ' :: (d ++ k))
  rw [tryUrlDate, hdw]
  simp only []
  rw [ht, if_neg hu1, tryDate_shape hd k]

theorem scanTitleK_shape : ∀ {t : JStr}, t ≠ [] → (∀ c ∈ t, c ≠ ']' ∧ c ≠ '\n' ∧ c ≠ '\r') →
    ∀ {s u : JStr} {d : Option JStr} {r : JStr}, tryUrlDate s = some (u, d, r) →
    scanTitleK (t ++ ']' :: s) = some (t, u, d, r) := by
  intro t
  induction t with
  | nil => intro h; exact absurd rfl h
  | cons c t2 ih =>
    intro _ ht2 s u d r hs
    have hc := ht2 c (by simp)
    rw [List.cons_append, scanTitleK]
    rw [if_neg (by simp [hc.2.1, hc.2.2])]
    cases t2 with
    | nil =>
      rw [show (([] : JStr) ++ ']' :: s) = ']' :: s from rfl]
      rw [titleStop, if_pos rfl, hs]
    | cons c2 t3 =>
      have hc2 : c2 ≠ ']' := (ht2 c2 (by simp)).1
      rw [show ((c2 :: t3 : JStr) ++ ']' :: s) = c2 :: (t3 ++ ']' :: s) from rfl]
      rw [titleStop, if_neg hc2]
      simp only []
      rw [show (c2 :: (t3 ++ ']' :: s)) = ((c2 :: t3) ++ ']' :: s) from rfl]
      rw [ih (by simp) (fun x hx => ht2 x (List.mem_cons_of_mem _ hx)) hs]

theorem matchEntry_line {l : LinkR} (hl : goodLink l = true) (k : JStr) :
    matchEntry (renderLine l ++ k) = some (l.title, l.url, some l.date, k) := by
  obtain ⟨h1, h2, h3, h4, h5⟩ := goodLink_spec hl
  have heq : renderLine l ++ k
      = '-' :: ' ' :: '[' :: (l.title ++ ']' :: ('(' :: (l.url ++ ')' :: ' ' :: '-' :: ' ' :: (l.date ++ k)))) := by
    unfold renderLine
    simp [List.append_assoc]
  rw [heq, matchEntry]
  exact scanTitleK_shape h1 (fun c hc => ⟨(h2 c hc).2.1, (h2 c hc).2.2.2.1, (h2 c hc).2.2.2.2⟩)
    (tryUrlDate_shape h3 (fun c hc => (h4 c hc).1) h5 k)

theorem skipLine_newline (r : JStr) : skipLine ('\n' :: r) = some r := by
  rw [skipLine]
  simp

theorem scanGo_lineBlock (today : JStr) : ∀ (links : List LinkR), links.all goodLink = true →
    ∀ (fuel : Nat), (lineBlock links).length < fuel → scanGo today fuel (lineBlock links) = links := by
  intro links
  induction links with
  | nil =>
    intro _ fuel hf
    cases fuel with
    | zero => exact absurd hf (by simp)
    | succ f => rfl
  | cons l rest ih =>
    intro hall fuel hf
    rw [List.all_cons, Bool.and_eq_true] at hall
    obtain ⟨hl, hrest⟩ := hall
    cases fuel with
    | zero => exact absurd hf (by simp)
    | succ f =>
      rw [lineBlock] at hf ⊢
      rw [scanGo, matchEntry_line hl]
      simp only []
      rw [skipLine_newline]
      simp only [Option.getD_some]
      have hlen : (lineBlock rest).length < f := by
        rw [List.length_append] at hf
        simp only [List.length_cons] at hf
        omega
      rw [ih hrest f hlen]

theorem scanLinks_body (today : JStr) (links : List LinkR) (h : links.all goodLink = true) :
    scanLinks today ('\n' :: lineBlock links) = links := by
  unfold scanLinks
  rw [List.length_cons, scanGo]
  rw [show matchEntry ('\n' :: lineBlock links) = none from rfl]
  simp only []
  rw [skipLine_newline]
  simp only []
  exact scanGo_lineBlock today links h _ (by omega)

theorem parseSection_renderSection (today : JStr) (links : List LinkR)
    (h : links.all goodLink = true) :
    parseSection today (renderSection links) = ⟨[], [], links⟩ := by
  have hlt := lt_not_mem_lineBlock h
  have hsi : firstOccAux MARKER_START ((MARKER_START ++ '\n' :: lineBlock links) ++ MARKER_END)
      = some 0 := by
    apply firstOccAux_of_isPrefixOf
    rw [List.append_assoc]
    exact isPrefixOf_append_self _ _
  have h0 : MARKER_END.isPrefixOf ((MARKER_START ++ '\n' :: lineBlock links) ++ MARKER_END)
      = false := by
    rw [List.append_assoc]
    exact mend_not_isPrefixOf_start _
  have h1 : ∀ c ∈ (MARKER_START ++ '\n' :: lineBlock links).drop 1, c ≠ '<' := by
    intro c hc
    rw [show (MARKER_START ++ '\n' :: lineBlock links).drop 1
        = ("!-- rss-action:start -->").toList ++ '\n' :: lineBlock links from rfl] at hc
    have hnotin : '<' ∉ ("!-- rss-action:start -->").toList := by decide
    rcases List.mem_append.mp hc with h2 | h3
    · exact fun hceq => hnotin (hceq ▸ h2)
    · rcases List.mem_cons.mp h3 with rfl | h4
      · decide
      · exact fun hceq => hlt (hceq ▸ h4)
  have hei : firstOccAux MARKER_END ((MARKER_START ++ '\n' :: lineBlock links) ++ MARKER_END)
      = some (MARKER_START ++ '\n' :: lineBlock links).length :=
    firstOcc_tail MARKER_END '<' (("!-- rss-action:end -->").toList) rfl _ (Or.inr h0) h1
  have hpos : 0 < (MARKER_START ++ '\n' :: lineBlock links).length := by
    simp only [List.length_append, List.length_cons]
    omega
  rw [renderSection_block links]
  unfold parseSection
  rw [hsi, hei]
  simp only []
  rw [if_neg (Nat.not_le.mpr hpos)]
  simp only [SectionR.mk.injEq]
  refine ⟨rfl, ?_, ?_⟩
  · rw [← List.length_append, List.drop_length]
  · rw [List.take_left, Nat.zero_add, List.drop_left]
    exact scanLinks_body today links h

/-- C1 (amended): for every well-formed entries list — each title non-empty,
without brackets, `<` or line terminators; each url non-empty, without `)`,
`<` or line terminators; each date exactly of the `\d{4}-\d{2}-\d{2}` shape —
parsing the document produced by `renderSection` yields exactly the same
entries list, and re-serializing it yields a byte-identical managed section.
(The claim as frozen, whose well-formedness asks only for bracket-free titles
and valid dates, is refuted by `parse_render_not_roundtrip`: an empty
title renders as `- [](url) - date`, which the parser's regex drops.) -/
theorem parse_render_roundtrip (todayStr : JStr) (links : List LinkR)
    (h : links.all goodLink = true) :
    (parseSection todayStr (renderSection links)).links = links ∧
    renderSection ((parseSection todayStr (renderSection links)).links) = renderSection links := by
  rw [parseSection_renderSection todayStr links h]
  exact ⟨rfl, rfl⟩

/-- Witness for the amended C1 at a concrete one-entry list. -/
theorem parse_render_roundtrip_witness :
    ([⟨("T").toList, ("https://x.com/a").toList, ("2024-01-02").toList⟩] : List LinkR).all goodLink = true ∧
    ((parseSection ("2024-03-04").toList (renderSection [⟨("T").toList, ("https://x.com/a").toList, ("2024-01-02").toList⟩])).links
        = [⟨("T").toList, ("https://x.com/a").toList, ("2024-01-02").toList⟩] ∧
      renderSection ((parseSection ("2024-03-04").toList (renderSection [⟨("T").toList, ("https://x.com/a").toList, ("2024-01-02").toList⟩])).links)
        = renderSection [⟨("T").toList, ("https://x.com/a").toList, ("2024-01-02").toList⟩]) :=
  ⟨by decide, parse_render_roundtrip _ _ (by decide)⟩

/-- C1 counterexample to the claim as frozen: the record with empty title,
url `https://x.com/a` and valid date `2024-01-02` satisfies the claim's
well-formedness (title contains no brackets, date is a valid `YYYY-MM-DD`
string), yet parsing the serialized document yields no entries at all: the
rendered line `- [](https://x.com/a) - 2024-01-02` does not match the
parser's regex (`.+?` needs at least one title character). -/
theorem parse_render_not_roundtrip :
    ('[' ∉ ([] : JStr) ∧ ']' ∉ ([] : JStr) ∧ isDateShape (("2024-01-02").toList) = true) ∧
    (parseSection (("2024-03-04").toList)
        (renderSection [⟨[], ("https://x.com/a").toList, ("2024-01-02").toList⟩])).links = [] ∧
    ([] : List LinkR) ≠ [⟨[], ("https://x.com/a").toList, ("2024-01-02").toList⟩] := by
  decide

/-- C2 (amended): the parser uses the first occurrence of each marker in the
whole document — the end marker is not searched for after the start marker.
Hence for every document of the form END ++ x ++ START ++ y ++ END the first
end-marker occurrence (index 0) is not after the first start-marker
occurrence, and `parseSection` takes the marker-absent fallback: the whole
document, right-trimmed with a blank line appended, becomes `before`, the
entry list is empty and `after` is a single newline. -/
theorem parseSection_end_first_fallback (todayStr x y : JStr) :
    parseSection todayStr (MARKER_END ++ x ++ MARKER_START ++ y ++ MARKER_END) =
      fallbackParse (MARKER_END ++ x ++ MARKER_START ++ y ++ MARKER_END) := by
  unfold parseSection
  have hei : firstOccAux MARKER_END (MARKER_END ++ x ++ MARKER_START ++ y ++ MARKER_END)
      = some 0 := by
    apply firstOccAux_of_isPrefixOf
    rw [List.append_assoc, List.append_assoc, List.append_assoc]
    exact isPrefixOf_append_self _ _
  rw [hei]
  cases hsi : firstOccAux MARKER_START (MARKER_END ++ x ++ MARKER_START ++ y ++ MARKER_END) with
  | none => simp only []
  | some si =>
    simp only []
    rw [if_pos (Nat.zero_le si)]

/-- C2 counterexample to the claim as frozen: for the concrete document
END + newline + START + one well-formed entry line + END, the claim predicts
that the section body between the start marker and the end marker after it
is parsed (one entry, with only the text before the start marker as prefix);
the code instead returns the marker-absent fallback: no entries, the whole
right-trimmed document plus a blank line as `before`, and `"\n"` as
`after`. -/
theorem parseSection_end_first_counterexample :
    (parseSection ("2024-03-04").toList
        (MARKER_END ++ ("\nx\n").toList ++ MARKER_START ++ ("\n- [t](u) - 2024-01-01\n").toList ++ MARKER_END)).links = [] ∧
    (parseSection ("2024-03-04").toList
        (MARKER_END ++ ("\nx\n").toList ++ MARKER_START ++ ("\n- [t](u) - 2024-01-01\n").toList ++ MARKER_END)).before
      = trimEndJS (MARKER_END ++ ("\nx\n").toList ++ MARKER_START ++ ("\n- [t](u) - 2024-01-01\n").toList ++ MARKER_END) ++ ('\n' :: '\n' :: []) ∧
    (parseSection ("2024-03-04").toList
        (MARKER_END ++ ("\nx\n").toList ++ MARKER_START ++ ("\n- [t](u) - 2024-01-01\n").toList ++ MARKER_END)).after
      = ['\n'] := by
  decide

/-- C10: a feed item title consisting only of square brackets and whitespace,
such as `"[ ]"`, is sanitised to the empty string (the `Untitled` placeholder
only applies to an absent or empty raw title), the resulting record renders
as `- [](url) - date`, and parsing a section containing exactly that rendered
entry yields no links: the entry is silently dropped on the next run's
parse. -/
theorem sanitiseTitle_brackets_dropped :
    sanitiseTitle ("[ ]").toList = [] ∧
    sanitiseTitle ("[ ]").toList ≠ ("Untitled").toList ∧
    renderLine ⟨sanitiseTitle ("[ ]").toList, ("https://x.com/a").toList, ("2024-01-02").toList⟩
      = ("- [](https://x.com/a) - 2024-01-02").toList ∧
    (parseSection ("2024-03-04").toList
        (renderSection [⟨sanitiseTitle ("[ ]").toList, ("https://x.com/a").toList, ("2024-01-02").toList⟩])).links
      = [] := by
  decide

theorem joinNL_intercalate : ∀ (ls : List JStr), joinNL ls = List.intercalate ['\n'] ls := by
  intro ls
  induction ls with
  | nil => rfl
  | cons x rest ih =>
    cases rest with
    | nil => simp [joinNL, List.intercalate, List.intersperse]
    | cons y t =>
      rw [show joinNL (x :: y :: t) = x ++ '\n' :: joinNL (y :: t) from rfl, ih]
      simp [List.intercalate, List.intersperse]

theorem renderLine_eq_spec (l : LinkR) : renderLine l = renderLineSpec l := by
  unfold renderLine renderLineSpec
  rw [show ("- [").toList = ['-', ' ', '['] from rfl]
  rw [show ("](").toList = [']', '('] from rfl]
  rw [show (") - ").toList = [')', ' ', '-', ' '] from rfl]
  simp [List.append_assoc]

/-- C3: serializing the empty entries list yields exactly the two marker
lines separated by a single newline character (the blank body between the
markers), and serializing any list agrees with the spec-side rendering
`renderSectionSpec`: each record rendered as `- [title](url) - date`, joined
with newlines, wrapped with a leading and trailing newline and enclosed
between the two literal marker lines. -/
theorem renderSection_shape :
    renderSection ([] : List LinkR)
        = ("<!-- rss-action:start -->\n<!-- rss-action:end -->").toList ∧
    ∀ (links : List LinkR), renderSection links = renderSectionSpec links := by
  constructor
  · decide
  · intro links
    cases links with
    | nil =>
      rw [renderSectionSpec, if_pos rfl]
      simp [renderSection]
    | cons l rest =>
      rw [renderSectionSpec, if_neg (by simp)]
      simp only [renderSection]
      rw [if_neg (by simp)]
      rw [joinNL_intercalate]
      rw [show (l :: rest).map renderLine = (l :: rest).map renderLineSpec from
        congrArg (fun f => List.map f (l :: rest)) (funext renderLine_eq_spec)]
      simp [List.append_assoc]

/-! Lemmas and claims about the merge engine and the run pipeline. -/

/-- C5: the merge concatenates the (already deduplicated) new items in front
of the existing entries; for every natural-number cap, the final list is the
first `cap` entries of that concatenation (the whole concatenation when its
length is within the cap), the eviction count is the truncated difference
`length - cap`, and the dropped entries are exactly the tail
`(newItems ++ existing).drop cap` — the oldest entries.  The claim's concrete
scenario (cap 5, three existing entries, four new unique items) is included:
the final list keeps the four new items plus the newest existing entry, two
are evicted, and the dropped pair are the two oldest. -/
theorem mergeStep_cap (newItems existing : List LinkR) (cap : Nat) :
    (mergeStep newItems existing (some (cap : Int))).1 = (newItems ++ existing).take cap ∧
    (mergeStep newItems existing (some (cap : Int))).2 = newItems.length + existing.length - cap ∧
    (mergeStep newItems existing (some (cap : Int))).1 ++ (newItems ++ existing).drop cap
      = newItems ++ existing ∧
    (mergeStep
        [⟨['D'], ("https://x.com/d").toList, ("2024-01-04").toList⟩,
         ⟨['E'], ("https://x.com/e").toList, ("2024-01-05").toList⟩,
         ⟨['F'], ("https://x.com/f").toList, ("2024-01-06").toList⟩,
         ⟨['G'], ("https://x.com/g").toList, ("2024-01-07").toList⟩]
        [⟨['A'], ("https://x.com/a").toList, ("2024-01-03").toList⟩,
         ⟨['B'], ("https://x.com/b").toList, ("2024-01-02").toList⟩,
         ⟨['C'], ("https://x.com/c").toList, ("2024-01-01").toList⟩]
        (some 5)
      = ([⟨['D'], ("https://x.com/d").toList, ("2024-01-04").toList⟩,
          ⟨['E'], ("https://x.com/e").toList, ("2024-01-05").toList⟩,
          ⟨['F'], ("https://x.com/f").toList, ("2024-01-06").toList⟩,
          ⟨['G'], ("https://x.com/g").toList, ("2024-01-07").toList⟩,
          ⟨['A'], ("https://x.com/a").toList, ("2024-01-03").toList⟩], 2)) := by
  refine ⟨?_, ?_, ?_, by decide⟩
  · unfold mergeStep
    simp only []
    by_cases hgt : ((newItems ++ existing).length : Int) > (cap : Int)
    · rw [if_pos hgt]
      simp [Int.toNat_natCast]
    · rw [if_neg hgt]
      have hle : (newItems ++ existing).length ≤ cap := by
        have := Int.not_lt.mp hgt
        exact_mod_cast this
      simp [List.take_of_length_le hle]
  · unfold mergeStep
    simp only []
    by_cases hgt : ((newItems ++ existing).length : Int) > (cap : Int)
    · rw [if_pos hgt]
      simp only [Int.toNat_natCast, List.length_append]
    · rw [if_neg hgt]
      have hle : (newItems ++ existing).length ≤ cap := by
        have := Int.not_lt.mp hgt
        exact_mod_cast this
      rw [List.length_append] at hle
      simp only []
      omega
  · unfold mergeStep
    simp only []
    by_cases hgt : ((newItems ++ existing).length : Int) > (cap : Int)
    · rw [if_pos hgt]
      simp [Int.toNat_natCast, List.take_append_drop]
    · rw [if_neg hgt]
      have hle : (newItems ++ existing).length ≤ cap := by
        have := Int.not_lt.mp hgt
        exact_mod_cast this
      simp [List.drop_eq_nil_of_le hle]

/-- C6: the dedup filter keeps exactly the fresh items whose canonicalized
URL is not the canonicalized URL of any existing entry; it distributes over
concatenation of fresh lists (so fresh items are never deduplicated against
each other, only against the existing entries), preserves the relative order
of the kept items (the result is a sublist of the input), and on the spec's
concrete example an existing entry holding the decorated URL filters out a
fresh item holding the same base URL. -/
theorem dedupNew_spec :
    (∀ (f1 f2 e : List LinkR), dedupNew (f1 ++ f2) e = dedupNew f1 e ++ dedupNew f2 e) ∧
    (∀ (f e : List LinkR) (i : LinkR),
      i ∈ dedupNew f e ↔ i ∈ f ∧ stripUTM i.url ∉ e.map (fun l => stripUTM l.url)) ∧
    (∀ (f e : List LinkR), (dedupNew f e).Sublist f) ∧
    dedupNew [⟨['t'], ("https://x.com/a").toList, ("2024-01-02").toList⟩]
        [⟨['s'], ("https://x.com/a?utm_source=github&utm_medium=o&utm_campaign=r").toList,
          ("2024-01-01").toList⟩]
      = [] := by
  refine ⟨?_, ?_, ?_, by decide⟩
  · intro f1 f2 e
    unfold dedupNew
    exact List.filter_append _ _
  · intro f e i
    unfold dedupNew
    rw [List.mem_filter]
    have hcont : ∀ (x : JStr) (l : List JStr), l.contains x = true ↔ x ∈ l := by
      intro x l
      rw [List.contains_iff_exists_mem_beq]
      simp
    constructor
    · rintro ⟨h1, h2⟩
      simp only [decide_eq_true_eq] at h2
      exact ⟨h1, fun hm => h2 ((hcont _ _).mpr hm)⟩
    · rintro ⟨h1, h2⟩
      refine ⟨h1, ?_⟩
      simp only [decide_eq_true_eq]
      exact fun hc => h2 ((hcont _ _).mp hc)
  · intro f e
    unfold dedupNew
    exact List.filter_sublist f

/-- C7: evidence for the `max_links` NaN bug.  The default and the floor do
hold for numeric inputs: an empty input yields 10, `"0"` and `"-7"` are
clamped to 1, `"25"` stays 25.  But the claim also says no input string can
disable cap enforcement, while a non-numeric input such as `"abc"` makes
`parseInt` return NaN (`none` in the model); `Math.max(1, NaN)` is NaN and
`allLinks.length > NaN` is false, so the merge never truncates — with eleven
links and input `"abc"`, all eleven are kept and nothing is evicted.  This
contradicts the claim (and the README's description of `max_links` as the
maximum number of links kept in the file). -/
theorem effectiveMaxLinks_nan_disables_cap :
    effectiveMaxLinks ("abc").toList = none ∧
    (mergeStep (List.replicate 11 ⟨['t'], ("https://x.com/a").toList, ("2024-01-02").toList⟩)
        [] (effectiveMaxLinks ("abc").toList)).1.length = 11 ∧
    (mergeStep (List.replicate 11 ⟨['t'], ("https://x.com/a").toList, ("2024-01-02").toList⟩)
        [] (effectiveMaxLinks ("abc").toList)).2 = 0 ∧
    effectiveMaxLinks [] = some 10 ∧
    effectiveMaxLinks ("0").toList = some 1 ∧
    effectiveMaxLinks ("-7").toList = some 1 ∧
    effectiveMaxLinks ("25").toList = some 25 := by
  decide

/-- C9: when the deduplication step leaves no new items (and at least one
item was fetched), the run ends in the `noNewItems` outcome: no file content
is produced, no downstream git or PR action is reached, and the two outputs
are the empty string for the pull-request URL and the string `"0"` for the
new-item count. -/
theorem runCore_no_new_items (owner repo todayStr maxRaw : JStr) (fresh : List LinkR)
    (existing : Option JStr) (hne : fresh ≠ [])
    (hdedup : dedupNew (decorateAll owner repo fresh)
        (parseSection todayStr (match existing with | some c => c | none => seedContent)).links
      = []) :
    runCore owner repo todayStr maxRaw fresh existing = RunOutcome.noNewItems [] ['0'] := by
  unfold runCore
  rw [if_neg hne]
  simp only []
  rw [hdedup]
  simp

set_option maxRecDepth 8000 in
/-- Witness for C9: one fetched item whose base URL already appears (in
decorated form) in the stored document. -/
theorem runCore_no_new_items_witness :
    ([⟨['t'], ("https://x.com/a").toList, ("2024-03-04").toList⟩] : List LinkR) ≠ [] ∧
    dedupNew (decorateAll ['o'] ['r'] [⟨['t'], ("https://x.com/a").toList, ("2024-03-04").toList⟩])
        (parseSection ("2024-03-04").toList
          (match (some (MARKER_START ++ ("\n- [s](https://x.com/a?utm_source=github&utm_medium=o&utm_campaign=r) - 2024-01-01\n").toList ++ MARKER_END) : Option JStr) with
            | some c => c | none => seedContent)).links = [] ∧
    runCore ['o'] ['r'] ("2024-03-04").toList []
        [⟨['t'], ("https://x.com/a").toList, ("2024-03-04").toList⟩]
        (some (MARKER_START ++ ("\n- [s](https://x.com/a?utm_source=github&utm_medium=o&utm_campaign=r) - 2024-01-01\n").toList ++ MARKER_END))
      = RunOutcome.noNewItems [] ['0'] := by
  refine ⟨by decide, by decide, ?_⟩
  exact runCore_no_new_items _ _ _ _ _ _ (by decide) (by decide)

end RssAction
